import Mathlib

/-!
Verification development for the pog-lang lexical scanner
(`src/lexer.rs`: `Tokenizer::get_next_token`, `Parser::parse`).

The scanner state is the input text plus a byte cursor.  On each call the
engine matches the pattern table against the unconsumed suffix in declared
order, commits to the first match, advances the cursor by the end offset of
the used capture group (the inner group when the pattern defines one, the
whole match otherwise), skips discard matches by recursion, adds two to the
cursor for quoted literals, and returns the classified token.  Inputs are
modelled as `List Char` (all inputs of interest are ASCII, so byte offsets
and character offsets agree).

The pattern table `TOKEN_REGEXES` itself lives in the repository file
`defs.rs`, which is not available; it is modelled from the spec below.
-/

set_option maxRecDepth 4000

/-- Single-quote delimiter character of character literals. -/
def squote : Char := Char.ofNat 39

/-- Double-quote delimiter character of string literals. -/
def dquote : Char := Char.ofNat 34

/-- Newline character. -/
def newlineChar : Char := Char.ofNat 10

/-- Literal sub-kinds, from `DataType` in the repository. -/
inductive DataType where
  | Character
  | Integer
  | String
deriving DecidableEq, Repr

/-- Token categories, from `TokenType` in the repository.  `None` is the
discard category (whitespace and comments); it never appears in output. -/
inductive TokenType where
  | None
  | Keyword
  | DataType
  | Identifier
  | Delimiter
  | UnaryOperator
  | BinaryOperator
  | AssignmentOperator
  | Literal (dt : DataType)
deriving DecidableEq, Repr

/-- A classified token: category plus the stored lexeme. -/
structure Token where
  typ : TokenType
  value : String
deriving DecidableEq, Repr

/-- Modelled from the spec: the result of matching one pattern-table pattern
against the unconsumed suffix.  Patterns are anchored at the start of the
suffix (spec section 4.1 and section 9), so only end offsets are recorded:
`end0` is the end of the whole matched span (group 0), and `group1` is the
span of the inner sub-match when the pattern defines one (quoted literals). -/
structure MatchResult where
  end0 : Nat
  group1 : Option (Nat × Nat)
deriving DecidableEq, Repr

/-- End offset of the capture group the engine uses: group 1 when present,
otherwise group 0 (`captures.get(1)` falling back to `get(0)` in the code). -/
def chosenEnd (mr : MatchResult) : Nat :=
  match mr.group1 with
  | some (_, b) => b
  | none => mr.end0

/-- The lexeme text of the used capture group (`matches.as_str()`). -/
def lexemeOf (s : List Char) (mr : MatchResult) : String :=
  match mr.group1 with
  | some (a, b) => String.mk ((s.drop a).take (b - a))
  | none => String.mk (s.take mr.end0)

/-- Modelled from the spec: whitespace characters recognized by the discard
whitespace pattern. -/
def isWhitespaceChar (c : Char) : Bool :=
  c == ' ' || c == Char.ofNat 9 || c == newlineChar || c == Char.ofNat 13

/-- Modelled from the spec: the whitespace pattern (one or more whitespace
characters at the start of the suffix). -/
def matchWhitespace (s : List Char) : Option MatchResult :=
  let n := (s.takeWhile isWhitespaceChar).length
  if n == 0 then none else some ⟨n, none⟩

/-- Modelled from the spec: a line comment, two slashes up to (not
including) the end of the line. -/
def matchLineComment (s : List Char) : Option MatchResult :=
  match s with
  | a :: b :: rest =>
      if a == '/' && b == '/' then
        some ⟨2 + (rest.takeWhile (fun c => c != newlineChar)).length, none⟩
      else none
  | _ => none

/-- Distance to just past the first closing star-slash pair, if any. -/
def findBlockClose : List Char → Option Nat
  | [] => none
  | a :: rest =>
      if a == '*' && rest.head? == some '/' then some 2
      else (findBlockClose rest).map (· + 1)

/-- Modelled from the spec: a block comment, slash-star through the first
star-slash (non-greedy). -/
def matchBlockComment (s : List Char) : Option MatchResult :=
  match s with
  | a :: b :: rest =>
      if a == '/' && b == '*' then (findBlockClose rest).map (fun k => ⟨2 + k, none⟩)
      else none
  | _ => none

/-- Modelled from the spec: a character literal, a single character between
single quotes; the inner sub-match (group 1) is the character itself. -/
def matchCharacterLiteral (s : List Char) : Option MatchResult :=
  match s with
  | a :: _ :: b :: _ =>
      if a == squote && b == squote then some ⟨3, some (1, 2)⟩ else none
  | _ => none

/-- Modelled from the spec: a string literal, any characters other than the
double quote between double quotes; group 1 is the inner text. -/
def matchStringLiteral (s : List Char) : Option MatchResult :=
  match s with
  | a :: rest =>
      if a == dquote then
        let k := (rest.takeWhile (fun c => c != dquote)).length
        if k < rest.length then some ⟨k + 2, some (1, k + 1)⟩ else none
      else none
  | [] => none

/-- Modelled from the spec: an integer literal (one or more digits). -/
def matchInteger (s : List Char) : Option MatchResult :=
  let n := (s.takeWhile (fun c => c.isDigit)).length
  if n == 0 then none else some ⟨n, none⟩

/-- First character of an identifier: a letter or underscore. -/
def isIdentStart (c : Char) : Bool := c.isAlpha || c == '_'

/-- Later characters of an identifier: letters, digits or underscore. -/
def isIdentRest (c : Char) : Bool := c.isAlphanum || c == '_'

/-- Modelled from the spec: an identifier. -/
def matchIdentifier (s : List Char) : Option MatchResult :=
  match s with
  | c :: rest =>
      if isIdentStart c then some ⟨1 + (rest.takeWhile isIdentRest).length, none⟩
      else none
  | [] => none

/-- Modelled from the spec: a fixed-word pattern (keywords, data-type names,
operators, delimiters) anchored at the start of the suffix. -/
def matchLit (w : List Char) (s : List Char) : Option MatchResult :=
  if s.take w.length = w then some ⟨w.length, none⟩ else none

/-- One pattern-table entry: an anchored matcher plus its category. -/
def TokenEntry : Type := (List Char → Option MatchResult) × TokenType

/-- The eight keywords (spec section 3 and the repository test suite). -/
def keywordWords : List (List Char) :=
  ["break".toList, "continue".toList, "elif".toList, "else".toList,
   "fun".toList, "if".toList, "return".toList, "while".toList]

/-- The three data-type names. -/
def datatypeWords : List (List Char) :=
  ["char".toList, "int".toList, "str".toList]

/-- Operator words with their categories, compound forms listed before any
word they have as a prefix (spec section 3: the declared order must place
longer patterns before a strict prefix of them). -/
def operatorWords : List (List Char × TokenType) :=
  [("++".toList, TokenType.UnaryOperator),
   ("--".toList, TokenType.UnaryOperator),
   ("==".toList, TokenType.BinaryOperator),
   ("!=".toList, TokenType.BinaryOperator),
   (">=".toList, TokenType.BinaryOperator),
   ("<=".toList, TokenType.BinaryOperator),
   ("+=".toList, TokenType.AssignmentOperator),
   ("-=".toList, TokenType.AssignmentOperator),
   ("*=".toList, TokenType.AssignmentOperator),
   ("/=".toList, TokenType.AssignmentOperator),
   ("+".toList, TokenType.BinaryOperator),
   ("-".toList, TokenType.BinaryOperator),
   ("*".toList, TokenType.BinaryOperator),
   ("/".toList, TokenType.BinaryOperator),
   (">".toList, TokenType.BinaryOperator),
   ("<".toList, TokenType.BinaryOperator),
   ("=".toList, TokenType.AssignmentOperator)]

/-- The delimiter words. -/
def delimiterWords : List (List Char) :=
  ["\x7b".toList, "\x7d".toList, "(".toList, ")".toList, "[".toList, "]".toList,
   ";".toList, ",".toList, ".".toList, ":".toList]

/-- Modelled from the spec: the ordered pattern table `TOKEN_REGEXES` of the
repository file `defs.rs`, which is not available.  Discard patterns first,
then literals, keywords, data-type names, operators (compounds before their
prefixes), delimiters, and the identifier pattern last, per spec sections 3
and 4.1. -/
def TOKEN_REGEXES : List TokenEntry :=
  [(matchWhitespace, TokenType.None),
   (matchLineComment, TokenType.None),
   (matchBlockComment, TokenType.None),
   (matchCharacterLiteral, TokenType.Literal DataType.Character),
   (matchStringLiteral, TokenType.Literal DataType.String),
   (matchInteger, TokenType.Literal DataType.Integer)]
  ++ keywordWords.map (fun w => (matchLit w, TokenType.Keyword))
  ++ datatypeWords.map (fun w => (matchLit w, TokenType.DataType))
  ++ operatorWords.map (fun p => (matchLit p.1, p.2))
  ++ delimiterWords.map (fun w => (matchLit w, TokenType.Delimiter))
  ++ [(matchIdentifier, TokenType.Identifier)]

/-- Walk the table in declared order; return the index, match result and
category of the first entry whose pattern matches the suffix (the `for`
loop over `TOKEN_REGEXES.entries()` in `get_next_token`). -/
def findMatch : List TokenEntry → List Char → Option (Nat × MatchResult × TokenType)
  | [], _ => none
  | e :: rest, s =>
      match e.1 s with
      | some mr => some (0, mr, e.2)
      | none =>
          match findMatch rest s with
          | some (i, mr, tt) => some (i + 1, mr, tt)
          | none => none

/-- `Tokenizer::has_more_tokens`: the cursor is strictly inside the input. -/
def has_more_tokens (code : List Char) (cursor : Nat) : Bool :=
  cursor < code.length

/-- Result of one `get_next_token` call.  `endOfInput` models the `None`
return, `failure` models the panic on unrecognized input (carrying the
cursor position), and `outOfFuel` marks fuel exhaustion of the embedding
(never reached with sufficient fuel, as proved below). -/
inductive NextTokenResult where
  | endOfInput
  | token (t : Token) (newCursor : Nat)
  | failure (pos : Nat)
  | outOfFuel
deriving DecidableEq, Repr

/-- `Tokenizer::get_next_token`, fuel-indexed.  Faithful to the source: test
`has_more_tokens` first; match the table against the suffix at the cursor;
advance the cursor by the used group's end; recurse on a discard match;
add two for character and string literals; return the classified token;
fail at the cursor position when nothing matches. -/
def get_next_token (code : List Char) : Nat → Nat → NextTokenResult
  | 0, _ => .outOfFuel
  | fuel + 1, cursor =>
      if has_more_tokens code cursor then
        let unparsed := code.drop cursor
        match findMatch TOKEN_REGEXES unparsed with
        | none => .failure cursor
        | some (_, mr, tt) =>
            let cursor1 := cursor + chosenEnd mr
            if tt = TokenType.None then
              get_next_token code fuel cursor1
            else
              let cursor2 :=
                if tt = TokenType.Literal DataType.Character ∨
                   tt = TokenType.Literal DataType.String
                then cursor1 + 2 else cursor1
              .token ⟨tt, lexemeOf unparsed mr⟩ cursor2
      else .endOfInput

/-- Result of a whole tokenization (`Parser::parse`): the ordered token
list, or the failure position, or fuel exhaustion of the embedding. -/
inductive ParseResult where
  | ok (tokens : List Token)
  | failure (pos : Nat)
  | outOfFuel
deriving DecidableEq, Repr

/-- The collection loop of `Parser::parse`: call `get_next_token` until it
returns `endOfInput`, accumulating tokens in order. -/
def parseLoop (code : List Char) : Nat → Nat → List Token → ParseResult
  | 0, _, _ => .outOfFuel
  | fuel + 1, cursor, acc =>
      match get_next_token code (code.length - cursor + 1) cursor with
      | .endOfInput => .ok acc.reverse
      | .token t c => parseLoop code fuel c (t :: acc)
      | .failure p => .failure p
      | .outOfFuel => .outOfFuel

/-- `Parser::parse` driven to exhaustion from cursor 0: the whole
tokenization of one source text. -/
def tokenize (code : List Char) : ParseResult :=
  parseLoop code (code.length + 1) 0 []

example : tokenize "42".toList = .ok [⟨.Literal .Integer, "42"⟩] := by decide

example :
    tokenize [squote, 'c', squote] = .ok [⟨.Literal .Character, "c"⟩] := by decide

/-! ### Basic list facts used throughout -/

@[simp] theorem chosenEnd_nogroup (n : Nat) : chosenEnd ⟨n, none⟩ = n := rfl

@[simp] theorem chosenEnd_group (n a b : Nat) : chosenEnd ⟨n, some (a, b)⟩ = b := rfl

theorem takeWhile_length_le (p : Char → Bool) :
    ∀ l : List Char, (l.takeWhile p).length ≤ l.length := by
  intro l
  induction l with
  | nil => simp
  | cons a l ih =>
      rw [List.takeWhile_cons]
      split
      · simp only [List.length_cons]
        omega
      · simp

theorem findBlockClose_bounds :
    ∀ (l : List Char) (k : Nat), findBlockClose l = some k → 2 ≤ k ∧ k ≤ l.length := by
  intro l
  induction l with
  | nil => intro k h; simp [findBlockClose] at h
  | cons a rest ih =>
      intro k h
      rw [findBlockClose] at h
      split at h
      · rename_i hc
        simp only [Bool.and_eq_true, beq_iff_eq] at hc
        have hk : k = 2 := (Option.some.inj h).symm
        have hr : 1 ≤ rest.length := by
          cases rest with
          | nil => simp at hc
          | cons b t => simp
        simp only [List.length_cons]
        omega
      · cases hf : findBlockClose rest with
        | none => rw [hf] at h; simp at h
        | some k0 =>
            rw [hf] at h
            have h2 : k0 + 1 = k := Option.some.inj h
            have := ih k0 hf
            simp only [List.length_cons]
            omega

/-! ### Well-behavedness of every pattern-table entry

`goodEntry` records what the fuel and cursor-bound arguments need from each
entry: a successful match consumes at least one character of the suffix, the
used group's end lies inside the suffix, and for the two quoted-literal
categories it lies strictly inside (the closing delimiter follows it). -/

def goodEntry (e : TokenEntry) : Prop :=
  ∀ s mr, e.1 s = some mr →
    (1 ≤ chosenEnd mr ∧ chosenEnd mr ≤ s.length) ∧
      ((e.2 = TokenType.Literal DataType.Character ∨ e.2 = TokenType.Literal DataType.String) →
        chosenEnd mr + 1 ≤ s.length)

theorem notQuoted_None :
    ¬(TokenType.None = TokenType.Literal DataType.Character ∨
      TokenType.None = TokenType.Literal DataType.String) := by
  intro hq
  rcases hq with hq | hq <;> exact absurd hq (by simp)

theorem matchWhitespace_good : goodEntry (matchWhitespace, TokenType.None) := by
  intro s mr h
  simp only [matchWhitespace] at h
  split at h
  · simp at h
  · rename_i hn
    simp only [beq_iff_eq] at hn
    have hmr := Option.some.inj h
    subst hmr
    refine ⟨⟨by simp; omega, ?_⟩, fun hq => absurd hq notQuoted_None⟩
    simpa using takeWhile_length_le isWhitespaceChar s

theorem matchLineComment_good : goodEntry (matchLineComment, TokenType.None) := by
  intro s mr h
  match s with
  | [] => simp [matchLineComment] at h
  | [a] => simp [matchLineComment] at h
  | a :: b :: rest =>
      simp only [matchLineComment] at h
      split at h
      · have hmr := Option.some.inj h
        subst hmr
        refine ⟨⟨by simp; omega, ?_⟩, fun hq => absurd hq notQuoted_None⟩
        have := takeWhile_length_le (fun c => c != newlineChar) rest
        simp only [chosenEnd_nogroup, List.length_cons]
        omega
      · simp at h

theorem matchBlockComment_good : goodEntry (matchBlockComment, TokenType.None) := by
  intro s mr h
  match s with
  | [] => simp [matchBlockComment] at h
  | [a] => simp [matchBlockComment] at h
  | a :: b :: rest =>
      simp only [matchBlockComment] at h
      split at h
      · cases hf : findBlockClose rest with
        | none => rw [hf] at h; simp at h
        | some k =>
            rw [hf] at h
            have hmr : MatchResult.mk (2 + k) none = mr := Option.some.inj h
            subst hmr
            have := findBlockClose_bounds rest k hf
            refine ⟨⟨by simp; omega, ?_⟩, fun hq => absurd hq notQuoted_None⟩
            simp only [chosenEnd_nogroup, List.length_cons]
            omega
      · simp at h

theorem matchCharacterLiteral_good :
    goodEntry (matchCharacterLiteral, TokenType.Literal DataType.Character) := by
  intro s mr h
  match s with
  | [] => simp [matchCharacterLiteral] at h
  | [a] => simp [matchCharacterLiteral] at h
  | [a, b] => simp [matchCharacterLiteral] at h
  | a :: b :: c :: rest =>
      simp only [matchCharacterLiteral] at h
      split at h
      · have hmr := Option.some.inj h
        subst hmr
        refine ⟨⟨by simp, ?_⟩, ?_⟩ <;>
          · intros
            simp only [chosenEnd_group, List.length_cons]
            omega
      · simp at h

theorem matchStringLiteral_good :
    goodEntry (matchStringLiteral, TokenType.Literal DataType.String) := by
  intro s mr h
  match s with
  | [] => simp [matchStringLiteral] at h
  | a :: rest =>
      simp only [matchStringLiteral] at h
      split at h
      · split at h
        · rename_i hk
          have hmr := Option.some.inj h
          subst hmr
          refine ⟨⟨by simp, ?_⟩, ?_⟩ <;>
            · intros
              simp only [chosenEnd_group, List.length_cons]
              omega
        · simp at h
      · simp at h

theorem matchInteger_good :
    goodEntry (matchInteger, TokenType.Literal DataType.Integer) := by
  intro s mr h
  simp only [matchInteger] at h
  split at h
  · simp at h
  · rename_i hn
    simp only [beq_iff_eq] at hn
    have hmr := Option.some.inj h
    subst hmr
    refine ⟨⟨by simp; omega, ?_⟩, ?_⟩
    · simpa using takeWhile_length_le (fun c => c.isDigit) s
    · intro hq
      rcases hq with hq | hq <;> exact absurd hq (by simp)

theorem matchIdentifier_good : goodEntry (matchIdentifier, TokenType.Identifier) := by
  intro s mr h
  match s with
  | [] => simp [matchIdentifier] at h
  | c :: rest =>
      simp only [matchIdentifier] at h
      split at h
      · have hmr := Option.some.inj h
        subst hmr
        refine ⟨⟨by simp, ?_⟩, fun hq => by rcases hq with hq | hq <;> exact absurd hq (by simp)⟩
        have := takeWhile_length_le isIdentRest rest
        simp only [chosenEnd_nogroup, List.length_cons]
        omega
      · simp at h

theorem matchLit_good (w : List Char) (tt : TokenType) (hw : 1 ≤ w.length)
    (htt : ¬(tt = TokenType.Literal DataType.Character ∨
             tt = TokenType.Literal DataType.String)) :
    goodEntry (matchLit w, tt) := by
  intro s mr h
  simp only [matchLit] at h
  split at h
  · rename_i hs
    have hmr := Option.some.inj h
    subst hmr
    have hlen : w.length ≤ s.length := by
      have := congrArg List.length hs
      simp only [List.length_take] at this
      omega
    exact ⟨⟨by simpa using hw, by simpa using hlen⟩, fun hq => absurd hq htt⟩
  · simp at h

theorem table_good : ∀ e ∈ TOKEN_REGEXES, goodEntry e := by
  have hkw : ∀ w ∈ keywordWords, 1 ≤ w.length := by decide
  have hdt : ∀ w ∈ datatypeWords, 1 ≤ w.length := by decide
  have hdl : ∀ w ∈ delimiterWords, 1 ≤ w.length := by decide
  have hop : ∀ p ∈ operatorWords,
      1 ≤ p.1.length ∧ ¬(p.2 = TokenType.Literal DataType.Character ∨
        p.2 = TokenType.Literal DataType.String) := by decide
  intro e he
  simp only [TOKEN_REGEXES, List.mem_append, List.mem_cons, List.mem_map,
    List.not_mem_nil, or_false, List.mem_singleton] at he
  rcases he with (((((rfl | rfl | rfl | rfl | rfl | rfl) | ⟨w, hw, rfl⟩) | ⟨w, hw, rfl⟩) |
    ⟨p, hp, rfl⟩) | ⟨w, hw, rfl⟩) | rfl
  · exact matchWhitespace_good
  · exact matchLineComment_good
  · exact matchBlockComment_good
  · exact matchCharacterLiteral_good
  · exact matchStringLiteral_good
  · exact matchInteger_good
  · exact matchLit_good w TokenType.Keyword (hkw w hw) (by decide)
  · exact matchLit_good w TokenType.DataType (hdt w hw) (by decide)
  · exact matchLit_good p.1 p.2 (hop p hp).1 (hop p hp).2
  · exact matchLit_good w TokenType.Delimiter (hdl w hw) (by decide)
  · exact matchIdentifier_good

/-! ### The table walk commits to the first matching entry -/

theorem findMatch_spec :
    ∀ (l : List TokenEntry) (s : List Char) (i : Nat) (mr : MatchResult) (tt : TokenType),
      findMatch l s = some (i, mr, tt) →
      (∃ e, l[i]? = some e ∧ e.1 s = some mr ∧ e.2 = tt) ∧
        ∀ j, j < i → ∀ e, l[j]? = some e → e.1 s = none := by
  intro l
  induction l with
  | nil => intro s i mr tt h; simp [findMatch] at h
  | cons e0 rest ih =>
      intro s i mr tt h
      rw [findMatch] at h
      cases he : e0.1 s with
      | some mr0 =>
          simp only [he, Option.some.injEq, Prod.mk.injEq] at h
          obtain ⟨hi, hmr, htt⟩ := h
          subst hi; subst hmr; subst htt
          refine ⟨⟨e0, by simp, he, rfl⟩, ?_⟩
          intro j hj e hje
          exact absurd hj (Nat.not_lt_zero j)
      | none =>
          simp only [he] at h
          cases hf : findMatch rest s with
          | none =>
              simp only [hf] at h
              exact Option.noConfusion h
          | some x =>
              obtain ⟨i0, mr0, tt0⟩ := x
              simp only [hf, Option.some.injEq, Prod.mk.injEq] at h
              obtain ⟨hi, hmr, htt⟩ := h
              subst hmr; subst htt; subst hi
              obtain ⟨⟨e1, he1, he2, he3⟩, hearlier⟩ := ih s i0 mr0 tt0 hf
              refine ⟨⟨e1, ?_, he2, he3⟩, ?_⟩
              · simpa [List.getElem?_cons_succ] using he1
              · intro j hj e hje
                cases j with
                | zero =>
                    simp only [List.getElem?_cons_zero, Option.some.injEq] at hje
                    subst hje
                    exact he
                | succ j0 =>
                    apply hearlier j0 (by omega)
                    simpa [List.getElem?_cons_succ] using hje

theorem findMatch_eq_none :
    ∀ (l : List TokenEntry) (s : List Char),
      findMatch l s = none ↔ ∀ e ∈ l, e.1 s = none := by
  intro l s
  induction l with
  | nil => simp [findMatch]
  | cons e0 rest ih =>
      rw [findMatch]
      cases he : e0.1 s with
      | some mr0 => simp [List.forall_mem_cons, he]
      | none =>
          cases hf : findMatch rest s with
          | some x =>
              obtain ⟨i0, mr0, tt0⟩ := x
              simp [List.forall_mem_cons, he, ← ih, hf]
          | none => simp [List.forall_mem_cons, he, ← ih, hf]

theorem findMatch_table_good (s : List Char) (i : Nat) (mr : MatchResult) (tt : TokenType)
    (h : findMatch TOKEN_REGEXES s = some (i, mr, tt)) :
    (1 ≤ chosenEnd mr ∧ chosenEnd mr ≤ s.length) ∧
      ((tt = TokenType.Literal DataType.Character ∨ tt = TokenType.Literal DataType.String) →
        chosenEnd mr + 1 ≤ s.length) := by
  obtain ⟨⟨e, he1, he2, he3⟩, -⟩ := findMatch_spec TOKEN_REGEXES s i mr tt h
  have hmem : e ∈ TOKEN_REGEXES := List.getElem?_mem he1
  have hg := table_good e hmem s mr he2
  rw [he3] at hg
  exact hg

/-! ### Properties of one scanning step -/

theorem has_more_tokens_iff (code : List Char) (cursor : Nat) :
    has_more_tokens code cursor = true ↔ cursor < code.length := by
  simp [has_more_tokens]

/-- A returned token means scanning started strictly inside the input. -/
theorem gnt_token_has_more (code : List Char) (fuel cursor : Nat) (t : Token) (c : Nat)
    (h : get_next_token code fuel cursor = .token t c) : cursor < code.length := by
  cases fuel with
  | zero => exact NextTokenResult.noConfusion h
  | succ fuel =>
      rw [get_next_token] at h
      split at h
      · rename_i hm
        exact (has_more_tokens_iff code cursor).mp hm
      · exact NextTokenResult.noConfusion h

/-- Every returned token strictly advances the cursor, is never of the
discard category, and leaves the cursor at most one past the input end. -/
theorem gnt_token_facts (code : List Char) :
    ∀ (fuel cursor : Nat) (t : Token) (c : Nat),
      get_next_token code fuel cursor = .token t c →
      cursor < c ∧ t.typ ≠ TokenType.None ∧ c ≤ code.length + 1 := by
  intro fuel
  induction fuel with
  | zero => intro cursor t c h; exact NextTokenResult.noConfusion h
  | succ fuel ih =>
      intro cursor t c h
      rw [get_next_token] at h
      split at h
      · rename_i hm
        have hcur : cursor < code.length := (has_more_tokens_iff code cursor).mp hm
        have hlen : (code.drop cursor).length = code.length - cursor := by simp
        cases hfm : findMatch TOKEN_REGEXES (code.drop cursor) with
        | none =>
            simp only [hfm] at h
            exact NextTokenResult.noConfusion h
        | some x =>
            obtain ⟨i, mr, tt⟩ := x
            simp only [hfm] at h
            have hgood := findMatch_table_good (code.drop cursor) i mr tt hfm
            split at h
            · have hrec := ih (cursor + chosenEnd mr) t c h
              exact ⟨by omega, hrec.2.1, hrec.2.2⟩
            · rename_i htt
              simp only [NextTokenResult.token.injEq] at h
              obtain ⟨ht, hc⟩ := h
              subst ht
              by_cases hq : tt = TokenType.Literal DataType.Character ∨
                  tt = TokenType.Literal DataType.String
              · rw [if_pos hq] at hc
                have := hgood.2 hq
                exact ⟨by omega, htt, by omega⟩
              · rw [if_neg hq] at hc
                exact ⟨by omega, htt, by omega⟩
      · exact NextTokenResult.noConfusion h

/-- A failure is reported at a reachable position strictly inside the input
at which no table entry matches the unconsumed suffix. -/
theorem gnt_failure_spec (code : List Char) :
    ∀ (fuel cursor p : Nat), get_next_token code fuel cursor = .failure p →
      cursor ≤ p ∧ p < code.length ∧ findMatch TOKEN_REGEXES (code.drop p) = none := by
  intro fuel
  induction fuel with
  | zero => intro cursor p h; exact NextTokenResult.noConfusion h
  | succ fuel ih =>
      intro cursor p h
      rw [get_next_token] at h
      split at h
      · rename_i hm
        have hcur : cursor < code.length := (has_more_tokens_iff code cursor).mp hm
        cases hfm : findMatch TOKEN_REGEXES (code.drop cursor) with
        | none =>
            simp only [hfm, NextTokenResult.failure.injEq] at h
            subst h
            exact ⟨le_refl cursor, hcur, hfm⟩
        | some x =>
            obtain ⟨i, mr, tt⟩ := x
            simp only [hfm] at h
            have hgood := findMatch_table_good (code.drop cursor) i mr tt hfm
            split at h
            · have hrec := ih (cursor + chosenEnd mr) p h
              exact ⟨by omega, hrec.2.1, hrec.2.2⟩
            · exact NextTokenResult.noConfusion h
      · exact NextTokenResult.noConfusion h

/-- With fuel exceeding the remaining input length, scanning never runs out
of fuel: the embedding is total, mirroring the termination of the source
loop (each discard match strictly advances the cursor). -/
theorem gnt_ne_oof (code : List Char) :
    ∀ (fuel cursor : Nat), code.length - cursor < fuel →
      get_next_token code fuel cursor ≠ .outOfFuel := by
  intro fuel
  induction fuel with
  | zero => intro cursor h; omega
  | succ fuel ih =>
      intro cursor hfuel
      rw [get_next_token]
      split
      · rename_i hm
        have hcur : cursor < code.length := (has_more_tokens_iff code cursor).mp hm
        have hlen : (code.drop cursor).length = code.length - cursor := by simp
        cases hfm : findMatch TOKEN_REGEXES (code.drop cursor) with
        | none =>
            simp only [hfm]
            exact fun hcontra => NextTokenResult.noConfusion hcontra
        | some x =>
            obtain ⟨i, mr, tt⟩ := x
            simp only [hfm]
            have hgood := findMatch_table_good (code.drop cursor) i mr tt hfm
            split
            · exact ih (cursor + chosenEnd mr) (by omega)
            · exact fun hcontra => NextTokenResult.noConfusion hcontra
      · exact fun hcontra => NextTokenResult.noConfusion hcontra

/-- One scanning step depends only on the unconsumed suffix: the engine
never re-examines text before the cursor. -/
theorem gnt_ext :
    ∀ (fuel : Nat) (code1 code2 : List Char) (cursor : Nat),
      cursor ≤ code1.length → cursor ≤ code2.length →
      code1.drop cursor = code2.drop cursor →
      get_next_token code1 fuel cursor = get_next_token code2 fuel cursor := by
  intro fuel
  induction fuel with
  | zero => intros; rfl
  | succ fuel ih =>
      intro c1 c2 cursor h1 h2 hdrop
      have hlen : c1.length = c2.length := by
        have e1 : (c1.drop cursor).length = c1.length - cursor := by simp
        have e2 : (c2.drop cursor).length = c2.length - cursor := by simp
        rw [hdrop, e2] at e1
        omega
      by_cases hmore : cursor < c1.length
      · rw [get_next_token, get_next_token,
          if_pos ((has_more_tokens_iff c1 cursor).mpr hmore),
          if_pos ((has_more_tokens_iff c2 cursor).mpr (by omega))]
        rw [hdrop]
        cases hfm : findMatch TOKEN_REGEXES (c2.drop cursor) with
        | none => simp only [hfm]
        | some x =>
            obtain ⟨i, mr, tt⟩ := x
            simp only [hfm]
            have hgood := findMatch_table_good (c2.drop cursor) i mr tt hfm
            have hslen : (c2.drop cursor).length = c2.length - cursor := by simp
            by_cases htt : tt = TokenType.None
            · rw [if_pos htt, if_pos htt]
              apply ih c1 c2 (cursor + chosenEnd mr) (by omega) (by omega)
              rw [← List.drop_drop, ← List.drop_drop, hdrop]
            · rw [if_neg htt, if_neg htt]
      · rw [get_next_token, get_next_token,
          if_neg (fun hc => hmore ((has_more_tokens_iff c1 cursor).mp hc)),
          if_neg (fun hc => hmore (by
            have := (has_more_tokens_iff c2 cursor).mp hc
            omega))]

/-! ### Properties of the collection loop -/

theorem parseLoop_ne_oof (code : List Char) :
    ∀ (fuel cursor : Nat) (acc : List Token),
      code.length - cursor < fuel → parseLoop code fuel cursor acc ≠ .outOfFuel := by
  intro fuel
  induction fuel with
  | zero => intro cursor acc h; omega
  | succ fuel ih =>
      intro cursor acc hfuel
      rw [parseLoop]
      cases hg : get_next_token code (code.length - cursor + 1) cursor with
      | endOfInput => exact fun hc => ParseResult.noConfusion hc
      | token t c =>
          have hlt := (gnt_token_facts code _ cursor t c hg).1
          have hcur := gnt_token_has_more code _ cursor t c hg
          exact ih c (t :: acc) (by omega)
      | failure p => exact fun hc => ParseResult.noConfusion hc
      | outOfFuel =>
          exact absurd hg (gnt_ne_oof code (code.length - cursor + 1) cursor (by omega))

theorem parseLoop_failure_spec (code : List Char) :
    ∀ (fuel cursor : Nat) (acc : List Token) (p : Nat),
      parseLoop code fuel cursor acc = .failure p →
      p < code.length ∧ findMatch TOKEN_REGEXES (code.drop p) = none := by
  intro fuel
  induction fuel with
  | zero => intro cursor acc p h; exact ParseResult.noConfusion h
  | succ fuel ih =>
      intro cursor acc p h
      rw [parseLoop] at h
      cases hg : get_next_token code (code.length - cursor + 1) cursor with
      | endOfInput => rw [hg] at h; exact ParseResult.noConfusion h
      | token t c =>
          rw [hg] at h
          exact ih c (t :: acc) p h
      | failure q =>
          rw [hg] at h
          have hq : q = p := ParseResult.failure.inj h
          have hspec := gnt_failure_spec code (code.length - cursor + 1) cursor q hg
          rw [hq] at hspec
          exact ⟨hspec.2.1, hspec.2.2⟩
      | outOfFuel => rw [hg] at h; exact ParseResult.noConfusion h

theorem parseLoop_ok_types (code : List Char) :
    ∀ (fuel cursor : Nat) (acc ts : List Token),
      (∀ t ∈ acc, t.typ ≠ TokenType.None) →
      parseLoop code fuel cursor acc = .ok ts →
      ∀ t ∈ ts, t.typ ≠ TokenType.None := by
  intro fuel
  induction fuel with
  | zero => intro cursor acc ts hacc h; exact ParseResult.noConfusion h
  | succ fuel ih =>
      intro cursor acc ts hacc h
      rw [parseLoop] at h
      cases hg : get_next_token code (code.length - cursor + 1) cursor with
      | endOfInput =>
          rw [hg] at h
          have hts := ParseResult.ok.inj h
          subst hts
          intro t ht
          exact hacc t (List.mem_reverse.mp ht)
      | token t0 c =>
          rw [hg] at h
          refine ih c (t0 :: acc) ts ?_ h
          intro t ht
          rcases List.mem_cons.mp ht with rfl | hmem
          · exact (gnt_token_facts code _ cursor t c hg).2.1
          · exact hacc t hmem
      | failure q => rw [hg] at h; exact ParseResult.noConfusion h
      | outOfFuel => rw [hg] at h; exact ParseResult.noConfusion h

theorem parseLoop_fuel_irrel (code : List Char) :
    ∀ (f1 f2 cursor : Nat) (acc : List Token),
      code.length - cursor < f1 → code.length - cursor < f2 →
      parseLoop code f1 cursor acc = parseLoop code f2 cursor acc := by
  intro f1
  induction f1 with
  | zero => intro f2 cursor acc h1 h2; omega
  | succ f1 ih =>
      intro f2 cursor acc h1 h2
      cases f2 with
      | zero => omega
      | succ f2 =>
          rw [parseLoop, parseLoop]
          cases hg : get_next_token code (code.length - cursor + 1) cursor with
          | endOfInput => rfl
          | token t c =>
              have hlt := (gnt_token_facts code _ cursor t c hg).1
              have hcur := gnt_token_has_more code _ cursor t c hg
              exact ih f2 c (t :: acc) (by omega) (by omega)
          | failure p => rfl
          | outOfFuel => rfl

theorem tokenize_total (code : List Char) :
    (∃ ts, tokenize code = .ok ts) ∨ (∃ p, tokenize code = .failure p) := by
  cases h : tokenize code with
  | ok ts => exact Or.inl ⟨ts, rfl⟩
  | failure p => exact Or.inr ⟨p, rfl⟩
  | outOfFuel => exact absurd h (parseLoop_ne_oof code (code.length + 1) 0 [] (by omega))

/-! ### Claim theorems -/

/-- Claim C1, counterexample to the claim as stated: the input slash-star,
space, backtick, space, star-slash contains a position (offset 3, the
backtick) at which no pattern in the table matches the suffix, yet
`tokenize` does not fail there: the whole input is consumed as one block
comment and tokenization succeeds with an empty token list. -/
theorem claim1_counterexample :
    (∀ e ∈ TOKEN_REGEXES, e.1 (("/* ` */".toList).drop 3) = none) ∧
      3 < ("/* ` */".toList).length ∧
      tokenize ("/* ` */".toList) = .ok [] :=
  ⟨(findMatch_eq_none TOKEN_REGEXES (("/* ` */".toList).drop 3)).mp (by decide),
   by decide, by decide⟩

/-- Claim C1, amended: whenever `tokenize` fails, it returns the single
failure result (no tokens are produced at all — the failure constructor
carries none, so tokenization is atomic), and the carried position is a
position strictly inside the input at which no pattern in the table matches
the unconsumed suffix.  An unmatched position that scanning never reaches
(one inside a comment or literal span) does not cause a failure. -/
theorem claim1_failure_unmatched :
    ∀ (code : List Char) (p : Nat), tokenize code = .failure p →
      p < code.length ∧ findMatch TOKEN_REGEXES (code.drop p) = none ∧
        (∀ e ∈ TOKEN_REGEXES, e.1 (code.drop p) = none) ∧
        ∀ ts, tokenize code ≠ .ok ts := by
  intro code p h
  have hf := parseLoop_failure_spec code (code.length + 1) 0 [] p h
  refine ⟨hf.1, hf.2, (findMatch_eq_none TOKEN_REGEXES (code.drop p)).mp hf.2, ?_⟩
  intro ts hok
  rw [h] at hok
  exact ParseResult.noConfusion hok

/-- Witness for C1: on the one-character input consisting of a backtick,
tokenization fails at position 0, where nothing matches. -/
theorem claim1_witness :
    0 < ([Char.ofNat 96] : List Char).length ∧
      findMatch TOKEN_REGEXES (([Char.ofNat 96] : List Char).drop 0) = none := by
  have h := claim1_failure_unmatched [Char.ofNat 96] 0 (by decide)
  exact ⟨h.1, h.2.1⟩

/-- Claim C2: the engine commits to the first pattern-table entry, in
declared order, whose (anchored) pattern matches the unconsumed suffix:
whenever the table walk returns entry index `i` with match `mr` and
category `tt`, entry `i` produced exactly that match and category, and
every entry before `i` fails to match the suffix. -/
theorem claim2_first_match :
    ∀ (s : List Char) (i : Nat) (mr : MatchResult) (tt : TokenType),
      findMatch TOKEN_REGEXES s = some (i, mr, tt) →
      (∃ e, TOKEN_REGEXES[i]? = some e ∧ e.1 s = some mr ∧ e.2 = tt) ∧
        ∀ j, j < i → ∀ e, TOKEN_REGEXES[j]? = some e → e.1 s = none :=
  fun s i mr tt h => findMatch_spec TOKEN_REGEXES s i mr tt h

/-- Witness for C2: on the suffix `if`, the table walk returns entry 11
(the keyword `if`), and all eleven earlier entries fail to match. -/
theorem claim2_witness :
    (∃ e, TOKEN_REGEXES[11]? = some e ∧ e.1 ("if".toList) = some ⟨2, none⟩ ∧
        e.2 = TokenType.Keyword) ∧
      ∀ j, j < 11 → ∀ e, TOKEN_REGEXES[j]? = some e → e.1 ("if".toList) = none :=
  claim2_first_match ("if".toList) 11 ⟨2, none⟩ TokenType.Keyword (by decide)

/-- Claim C3, evaluated at the failing input (single-quote, c,
single-quote, semicolon): the engine advances the cursor by the inner
group's end (2) plus 2 for the quoted literal, landing at 4 — one byte past
the position one-past-the-closing-delimiter (3) that the claim requires —
so the trailing semicolon is silently skipped and the delimiter token is
lost from the output. -/
theorem claim3_cursor_overshoot :
    get_next_token [squote, 'c', squote, ';'] 5 0 =
        .token ⟨TokenType.Literal DataType.Character, "c"⟩ 4 ∧
      ([squote, 'c', squote, ';'] : List Char).length = 4 ∧
      tokenize [squote, 'c', squote, ';'] =
        .ok [⟨TokenType.Literal DataType.Character, "c"⟩] :=
  ⟨by decide, by decide, by decide⟩

/-- Claim C4, counterexample to the claim as stated: after scanning the
three-character input single-quote, c, single-quote, the cursor stands at
4, strictly beyond the input length 3 — the claimed upper bound by the
input length fails for quoted literals. -/
theorem claim4_counterexample :
    get_next_token [squote, 'c', squote] 4 0 =
        .token ⟨TokenType.Literal DataType.Character, "c"⟩ 4 ∧
      ([squote, 'c', squote] : List Char).length < 4 :=
  ⟨by decide, by decide⟩

/-- Claim C4, amended: the cursor is a non-negative offset that strictly
increases on every returned token and never exceeds the input length plus
one (the excess of one arises exactly from the quoted-literal adjustment);
and one scanning step depends only on the unconsumed suffix, so text
before the cursor is never re-examined. -/
theorem claim4_cursor_invariant :
    (∀ (code : List Char) (fuel cursor : Nat) (t : Token) (c : Nat),
        get_next_token code fuel cursor = .token t c →
          cursor < c ∧ c ≤ code.length + 1) ∧
      ∀ (code1 code2 : List Char) (fuel cursor : Nat),
        cursor ≤ code1.length → cursor ≤ code2.length →
        code1.drop cursor = code2.drop cursor →
        get_next_token code1 fuel cursor = get_next_token code2 fuel cursor :=
  ⟨fun code fuel cursor t c h =>
      ⟨(gnt_token_facts code fuel cursor t c h).1,
       (gnt_token_facts code fuel cursor t c h).2.2⟩,
   fun c1 c2 fuel cursor h1 h2 hd => gnt_ext fuel c1 c2 cursor h1 h2 hd⟩

/-- Witness for C4: scanning `42` advances 0 < 2 ≤ length + 1, and two
inputs agreeing from cursor 1 on scan identically there. -/
theorem claim4_witness :
    ((0:Nat) < 2 ∧ 2 ≤ ("42".toList).length + 1) ∧
      get_next_token ("a+".toList) 3 1 = get_next_token ("b+".toList) 3 1 :=
  ⟨claim4_cursor_invariant.1 ("42".toList) 3 0
      ⟨TokenType.Literal DataType.Integer, "42"⟩ 2 (by decide),
   claim4_cursor_invariant.2 ("a+".toList) ("b+".toList) 3 1
      (by decide) (by decide) (by decide)⟩

/-- Claim C5: for every finite input the tokenization terminates, ending in
the complete token list or in exactly one failure (never in the embedding's
fuel marker), and every successfully returned token strictly advances the
cursor, so the discard-skipping recursion cannot loop. -/
theorem claim5_termination :
    ∀ code : List Char,
      ((∃ ts, tokenize code = .ok ts) ∨ (∃ p, tokenize code = .failure p)) ∧
        ∀ (fuel cursor : Nat) (t : Token) (c : Nat),
          get_next_token code fuel cursor = .token t c → cursor < c :=
  fun code =>
    ⟨tokenize_total code,
     fun fuel cursor t c h => (gnt_token_facts code fuel cursor t c h).1⟩

/-- Witness for C5: instantiated on the input `42`, whose single scan step
advances the cursor from 0 to 2. -/
theorem claim5_witness :
    ((∃ ts, tokenize ("42".toList) = .ok ts) ∨
        (∃ p, tokenize ("42".toList) = .failure p)) ∧ (0:Nat) < 2 :=
  ⟨(claim5_termination ("42".toList)).1,
   (claim5_termination ("42".toList)).2 3 0
      ⟨TokenType.Literal DataType.Integer, "42"⟩ 2 (by decide)⟩

/-- Claim C6: tokenizing the three-character input single-quote, c,
single-quote yields exactly one `Literal(Character)` token with lexeme `c`,
and tokenizing the quoted input `This is String` yields exactly one
`Literal(String)` token with lexeme `This is String` — the delimiters are
stripped from the stored lexeme. -/
theorem claim6_delimiter_stripping :
    tokenize [squote, 'c', squote] =
        .ok [⟨TokenType.Literal DataType.Character, "c"⟩] ∧
      tokenize (dquote :: "This is String".toList ++ [dquote]) =
        .ok [⟨TokenType.Literal DataType.String, "This is String"⟩] :=
  ⟨by decide, by decide⟩

/-- Claim C7: discard matches produce no output token — concretely, the
block comment, whitespace and trailing line comment around `42` contribute
nothing, and in general no token of the discard category `None` ever
appears in a successful tokenization result. -/
theorem claim7_discard_transparency :
    tokenize ("/* multi\nline */ 42 // trailing".toList) =
        .ok [⟨TokenType.Literal DataType.Integer, "42"⟩] ∧
      ∀ (code : List Char) (ts : List Token), tokenize code = .ok ts →
        ∀ t ∈ ts, t.typ ≠ TokenType.None := by
  refine ⟨by decide, ?_⟩
  intro code ts h t ht
  exact parseLoop_ok_types code (code.length + 1) 0 [] ts (by simp) h t ht

/-- Witness for C7: the token produced for input `42` is not of the
discard category. -/
theorem claim7_witness :
    (⟨TokenType.Literal DataType.Integer, "42"⟩ : Token).typ ≠ TokenType.None :=
  claim7_discard_transparency.2 ("42".toList)
    [⟨TokenType.Literal DataType.Integer, "42"⟩] (by decide)
    ⟨TokenType.Literal DataType.Integer, "42"⟩ (by simp)

/-- Claim C8: tokenizing the fifteen-operator input yields exactly those
fifteen lexemes in order, the first ten as binary operators and the last
five as assignment operators — prefix patterns never fire where a compound
form should. -/
theorem claim8_operator_disambiguation :
    tokenize ("+ - / * == != >= > <= < = += -= *= /=".toList) =
      .ok [⟨TokenType.BinaryOperator, "+"⟩, ⟨TokenType.BinaryOperator, "-"⟩,
           ⟨TokenType.BinaryOperator, "/"⟩, ⟨TokenType.BinaryOperator, "*"⟩,
           ⟨TokenType.BinaryOperator, "=="⟩, ⟨TokenType.BinaryOperator, "!="⟩,
           ⟨TokenType.BinaryOperator, ">="⟩, ⟨TokenType.BinaryOperator, ">"⟩,
           ⟨TokenType.BinaryOperator, "<="⟩, ⟨TokenType.BinaryOperator, "<"⟩,
           ⟨TokenType.AssignmentOperator, "="⟩, ⟨TokenType.AssignmentOperator, "+="⟩,
           ⟨TokenType.AssignmentOperator, "-="⟩, ⟨TokenType.AssignmentOperator, "*="⟩,
           ⟨TokenType.AssignmentOperator, "/="⟩] := by decide

/-- Claim C9: tokenizing the empty input returns the empty token sequence
with no failure, and the very first `get_next_token` call reports end of
input. -/
theorem claim9_empty_input :
    tokenize ([] : List Char) = .ok [] ∧
      get_next_token ([] : List Char) 1 0 = .endOfInput :=
  ⟨by decide, by decide⟩

/-- Claim C10: tokenization is deterministic — the result is a pure function
of the input text and the fixed pattern table.  In the embedding the only
auxiliary parameter is the fuel budget, and any two sufficient budgets give
identical results, both equal to `tokenize`. -/
theorem claim10_deterministic :
    ∀ (code : List Char) (f1 f2 : Nat),
      code.length < f1 → code.length < f2 →
      parseLoop code f1 0 [] = parseLoop code f2 0 [] ∧
        parseLoop code f1 0 [] = tokenize code := by
  intro code f1 f2 h1 h2
  refine ⟨parseLoop_fuel_irrel code f1 f2 0 [] (by omega) (by omega), ?_⟩
  exact parseLoop_fuel_irrel code f1 (code.length + 1) 0 [] (by omega) (by omega)

/-- Witness for C10: two different sufficient budgets on input `42` agree
with each other and with `tokenize`. -/
theorem claim10_witness :
    parseLoop ("42".toList) 5 0 [] = parseLoop ("42".toList) 9 0 [] ∧
      parseLoop ("42".toList) 5 0 [] = tokenize ("42".toList) :=
  claim10_deterministic ("42".toList) 5 9 (by decide) (by decide)
